import Mathlib

/-!
# GrantSearch — verification of the similarity-ranking engine and browser scripts

This development embeds, in Lean 4, the components of the GrantSearch
repository that its specification describes:

* the document-to-grant similarity engine (Chunker, Vectorizer, Scorer,
  Ranker/Filter) — the Python implementation (`grant_matcher.py`) is not part
  of the source tree here, so these components are modelled from the
  specification text, and each such definition says so in its doc comment;
* the browser-console auto-save loop (`BROWSER_CONSOLE_SCRIPT.md`) and the
  auto-save bookmarklet (`bookmarklet_source.js`), embedded from the
  JavaScript source.

Texts are modelled as `List Char`; real-valued weights use `ℝ`, and the
ranking layer, whose behaviour is purely order-theoretic, uses `ℚ` scores so
that it stays executable.
-/

namespace GrantSearch

/-! ## Scorer

Modelled from the spec: `grant_matcher.py` is missing from the source tree.
The spec's Scorer contract reads: `score = (u · v) / (‖u‖ × ‖v‖)`, with
`score = 0` defined when either vector has zero norm.  A `TermVector` is a
mapping from terms to real weights; we represent it as a function
`String → ℝ` together with the vocabulary `Finset String` over which the
sums run. -/

/-- Modelled from the spec: dot product `u · v` of two term vectors over the
shared vocabulary `s`. -/
def dotProduct (s : Finset String) (u v : String → ℝ) : ℝ :=
  ∑ t ∈ s, u t * v t

/-- Modelled from the spec: squared Euclidean norm of a term vector. -/
def normSq (s : Finset String) (u : String → ℝ) : ℝ :=
  ∑ t ∈ s, u t ^ 2

/-- Modelled from the spec: Euclidean norm `‖u‖` of a term vector. -/
noncomputable def vecNorm (s : Finset String) (u : String → ℝ) : ℝ :=
  Real.sqrt (normSq s u)

open Classical in
/-- Modelled from the spec: cosine similarity
`score = (u · v) / (‖u‖ × ‖v‖)`, with `score = 0` when either vector has
zero norm (avoiding the division by zero). -/
noncomputable def cosineScore (s : Finset String) (u v : String → ℝ) : ℝ :=
  if vecNorm s u = 0 ∨ vecNorm s v = 0 then 0
  else dotProduct s u v / (vecNorm s u * vecNorm s v)

lemma dotProduct_nonneg {s : Finset String} {u v : String → ℝ}
    (hu : ∀ t ∈ s, 0 ≤ u t) (hv : ∀ t ∈ s, 0 ≤ v t) :
    0 ≤ dotProduct s u v :=
  Finset.sum_nonneg fun t ht => mul_nonneg (hu t ht) (hv t ht)

lemma dotProduct_comm (s : Finset String) (u v : String → ℝ) :
    dotProduct s u v = dotProduct s v u :=
  Finset.sum_congr rfl fun t _ => mul_comm (u t) (v t)

lemma dotProduct_le_norms (s : Finset String) (u v : String → ℝ) :
    dotProduct s u v ≤ vecNorm s u * vecNorm s v :=
  Real.sum_mul_le_sqrt_mul_sqrt s u v

/-- C1: the cosine score is within `[0,1]` for non-negative weight vectors,
zero-norm inputs score exactly `0`, and vectors with disjoint supports
(no overlapping vocabulary) score exactly `0`. -/
theorem cosineScore_bounds (s : Finset String) (u v : String → ℝ)
    (hu : ∀ t ∈ s, 0 ≤ u t) (hv : ∀ t ∈ s, 0 ≤ v t) :
    0 ≤ cosineScore s u v ∧ cosineScore s u v ≤ 1 ∧
    (vecNorm s u = 0 ∨ vecNorm s v = 0 → cosineScore s u v = 0) ∧
    ((∀ t ∈ s, u t = 0 ∨ v t = 0) → cosineScore s u v = 0) := by
  classical
  refine ⟨?_, ?_, ?_, ?_⟩
  · by_cases h : vecNorm s u = 0 ∨ vecNorm s v = 0
    · simp [cosineScore, h]
    · rw [cosineScore, if_neg h]
      exact div_nonneg (dotProduct_nonneg hu hv)
        (mul_nonneg (Real.sqrt_nonneg _) (Real.sqrt_nonneg _))
  · by_cases h : vecNorm s u = 0 ∨ vecNorm s v = 0
    · simp [cosineScore, h]
    · rw [cosineScore, if_neg h]
      exact div_le_one_of_le₀ (dotProduct_le_norms s u v)
        (mul_nonneg (Real.sqrt_nonneg _) (Real.sqrt_nonneg _))
  · intro h
    simp [cosineScore, h]
  · intro h
    have hdot : dotProduct s u v = 0 :=
      Finset.sum_eq_zero fun t ht => by
        rcases h t ht with h0 | h0 <;> simp [h0]
    by_cases hz : vecNorm s u = 0 ∨ vecNorm s v = 0
    · simp [cosineScore, hz]
    · rw [cosineScore, if_neg hz, hdot, zero_div]

/-- Witness for C1 at a concrete vocabulary and concrete vectors. -/
theorem cosineScore_bounds_witness :
    0 ≤ cosineScore {"health"} (fun _ => 1) (fun _ => 2) ∧
    cosineScore {"health"} (fun _ => 1) (fun _ => 2) ≤ 1 := by
  have h := cosineScore_bounds {"health"} (fun _ => 1) (fun _ => 2)
    (fun t _ => by norm_num) (fun t _ => by norm_num)
  exact ⟨h.1, h.2.1⟩

/-- C5: cosine similarity is commutative: `score(u,v) = score(v,u)`. -/
theorem cosineScore_comm (s : Finset String) (u v : String → ℝ) :
    cosineScore s u v = cosineScore s v u := by
  classical
  by_cases h1 : vecNorm s u = 0 <;> by_cases h2 : vecNorm s v = 0 <;>
    simp [cosineScore, h1, h2, dotProduct_comm s u v, mul_comm]

/-! ## Chunker

Modelled from the spec: `grant_matcher.py` is missing from the source tree.
The spec's Chunker contract reads: split normalized plain text into chunks of
a target word count, on word boundaries only, never mid-token; a document
shorter than the target size yields exactly one chunk; empty or
whitespace-only input yields zero chunks.  Text is modelled as `List Char`
and a chunk is again a `List Char` (its words joined by single spaces). -/

/-- Modelled from the spec: the whitespace-separated words of a text. -/
def wordsOf : List Char → List (List Char)
  | [] => []
  | c :: cs =>
    if c.isWhitespace then wordsOf cs
    else (c :: cs.takeWhile (fun d => !d.isWhitespace)) ::
      wordsOf (cs.dropWhile (fun d => !d.isWhitespace))
termination_by t => t.length
decreasing_by
  · simp
  · have h := (List.dropWhile_sublist (l := cs) (fun d => !d.isWhitespace)).length_le
    simp only [List.length_cons]
    omega

/-- Modelled from the spec: group a word list into consecutive runs of at
most `n` words (for `n ≥ 1`); the last run may be shorter. -/
def groupsOf (n : ℕ) : List α → List (List α)
  | [] => []
  | x :: xs => (x :: xs.take (n - 1)) :: groupsOf n (xs.drop (n - 1))
termination_by l => l.length
decreasing_by
  have := List.length_drop (n - 1) xs
  simp at this ⊢; omega

/-- Modelled from the spec: join a list of words with single spaces. -/
def joinSp : List (List Char) → List Char
  | [] => []
  | [w] => w
  | w :: ws => w ++ ' ' :: joinSp ws

/-- Modelled from the spec: the Chunker — split a text into its words, group
them into runs of at most `chunkSize` words, and render each group as a
chunk with single spaces between its words. -/
def chunk (chunkSize : ℕ) (t : List Char) : List (List Char) :=
  (groupsOf chunkSize (wordsOf t)).map joinSp

/-- A text is in normal form when it equals its own words joined by single
spaces (no leading/trailing whitespace, single spaces between words). -/
def normalizedText (t : List Char) : Prop :=
  joinSp (wordsOf t) = t

lemma wordsOf_eq_nil_iff (t : List Char) :
    wordsOf t = [] ↔ t.all Char.isWhitespace := by
  induction t using wordsOf.induct with
  | case1 => simp [wordsOf]
  | case2 c cs hc ih => simpa [wordsOf, hc] using ih
  | case3 c cs hc => simp [wordsOf, hc]

lemma groupsOf_eq_nil_iff (n : ℕ) (l : List α) :
    groupsOf n l = [] ↔ l = [] := by
  cases l <;> simp [groupsOf]

lemma groupsOf_of_length_le (n : ℕ) (l : List α) (hne : l ≠ [])
    (hlen : l.length ≤ n) : groupsOf n l = [l] := by
  cases l with
  | nil => exact absurd rfl hne
  | cons x xs =>
    have htake : xs.take (n - 1) = xs :=
      List.take_of_length_le (by simp at hlen; omega)
    have hdrop : xs.drop (n - 1) = [] :=
      List.drop_eq_nil_of_le (by simp at hlen; omega)
    simp [groupsOf, htake, hdrop]

/-- C3 (amended): with `chunkSize ≥ 1`, the Chunker yields zero chunks
exactly when the text is empty or whitespace-only, at least one chunk when
the text has a non-whitespace character, and exactly one chunk when the
text is also shorter than the target chunk size (fewer words than
`chunkSize`). -/
theorem chunk_count_spec (n : ℕ) (t : List Char) (hn : 1 ≤ n) :
    (t.all Char.isWhitespace → chunk n t = []) ∧
    (¬ t.all Char.isWhitespace → 1 ≤ (chunk n t).length) ∧
    (¬ t.all Char.isWhitespace → (wordsOf t).length < n →
      (chunk n t).length = 1) := by
  have hwiff := wordsOf_eq_nil_iff t
  refine ⟨?_, ?_, ?_⟩
  · intro h
    have : wordsOf t = [] := hwiff.mpr h
    simp [chunk, this, groupsOf]
  · intro h
    have hw : wordsOf t ≠ [] := fun hnil => h (hwiff.mp hnil)
    have : groupsOf n (wordsOf t) ≠ [] := by
      simpa [groupsOf_eq_nil_iff] using hw
    have : (groupsOf n (wordsOf t)).length ≠ 0 := by
      simpa [List.length_eq_zero] using this
    simp only [chunk, List.length_map]
    omega
  · intro h hlen
    have hw : wordsOf t ≠ [] := fun hnil => h (hwiff.mp hnil)
    have := groupsOf_of_length_le n (wordsOf t) hw (le_of_lt hlen)
    simp [chunk, this]

/-- Witness for C3 at the concrete text `"ab cd"` with chunk size 500. -/
theorem chunk_count_spec_witness :
    (¬ ('a' :: 'b' :: ' ' :: 'c' :: 'd' :: []).all Char.isWhitespace) ∧
    (chunk 500 ('a' :: 'b' :: ' ' :: 'c' :: 'd' :: [])).length = 1 := by
  refine ⟨by decide, ?_⟩
  exact (chunk_count_spec 500 ('a' :: 'b' :: ' ' :: 'c' :: 'd' :: [])
    (by decide)).2.2 (by decide) (by simp [wordsOf])

/-- C3 counterexample: the claim's "at least one chunk when T is non-empty"
fails on the whitespace-only but non-empty text `" "`, which yields zero
chunks. -/
theorem chunk_nonempty_counterexample :
    ((' ' :: []) : List Char) ≠ [] ∧ chunk 500 (' ' :: []) = [] := by
  constructor
  · decide
  · simp [chunk, wordsOf, groupsOf]

lemma joinSp_cons_of_ne_nil (w : List Char) (ws : List (List Char))
    (h : ws ≠ []) : joinSp (w :: ws) = w ++ ' ' :: joinSp ws := by
  cases ws with
  | nil => exact absurd rfl h
  | cons v vs => rfl

lemma joinSp_append (a b : List (List Char)) (ha : a ≠ []) (hb : b ≠ []) :
    joinSp (a ++ b) = joinSp a ++ ' ' :: joinSp b := by
  induction a with
  | nil => exact absurd rfl ha
  | cons w a ih =>
    cases a with
    | nil =>
      rw [List.singleton_append, joinSp_cons_of_ne_nil w b hb, joinSp]
    | cons v a' =>
      rw [List.cons_append,
        joinSp_cons_of_ne_nil w ((v :: a') ++ b) (by simp),
        ih (by simp), joinSp_cons_of_ne_nil w (v :: a') (by simp),
        List.append_assoc, List.cons_append]

lemma joinSp_groupsOf (n : ℕ) (l : List (List Char)) :
    joinSp ((groupsOf n l).map joinSp) = joinSp l := by
  induction l using groupsOf.induct n with
  | case1 => simp [groupsOf, joinSp]
  | case2 x xs ih =>
    by_cases hrest : xs.drop (n - 1) = []
    · have htake : xs.take (n - 1) = xs := by
        have := List.length_drop (n - 1) xs
        exact List.take_of_length_le (by rw [hrest] at this; simp at this; omega)
      rw [groupsOf, hrest, groupsOf, htake]
      rfl
    · have hg : groupsOf n (xs.drop (n - 1)) ≠ [] := by
        simpa [groupsOf_eq_nil_iff] using hrest
    -- the grouped head is `x :: take`, the tail groups rebuild `drop`
      rw [groupsOf, List.map_cons,
        joinSp_cons_of_ne_nil _ _ (by simpa using hg), ih,
        ← joinSp_append (x :: xs.take (n - 1)) (xs.drop (n - 1)) (by simp) hrest,
        List.cons_append, List.take_append_drop]

lemma groupsOf_flatten (n : ℕ) (l : List α) :
    (groupsOf n l).flatten = l := by
  induction l using groupsOf.induct n with
  | case1 => simp [groupsOf]
  | case2 x xs ih =>
    rw [groupsOf, List.flatten_cons, ih, List.cons_append,
      List.take_append_drop]

/-- C4 (amended): for `chunkSize ≥ 1`, joining the Chunker's output chunks
with single spaces yields the text's words joined by single spaces — so it
reconstructs the text exactly whenever the text is in normal form — and the
chunks partition the word sequence (no word lost, no mid-word split). -/
theorem chunk_roundtrip (n : ℕ) (t : List Char) (hn : 1 ≤ n)
    (ht : normalizedText t) :
    joinSp (chunk n t) = t ∧ (groupsOf n (wordsOf t)).flatten = wordsOf t := by
  constructor
  · rw [chunk, joinSp_groupsOf, ht]
  · exact groupsOf_flatten n (wordsOf t)

/-- Witness for C4 at the concrete normalized text `"ab cd e"` with chunk
size 2. -/
theorem chunk_roundtrip_witness :
    (1:ℕ) ≤ 2 ∧ normalizedText ('a' :: 'b' :: ' ' :: 'c' :: 'd' :: ' ' :: 'e' :: []) ∧
    joinSp (chunk 2 ('a' :: 'b' :: ' ' :: 'c' :: 'd' :: ' ' :: 'e' :: [])) =
      ('a' :: 'b' :: ' ' :: 'c' :: 'd' :: ' ' :: 'e' :: []) := by
  have hnorm : normalizedText ('a' :: 'b' :: ' ' :: 'c' :: 'd' :: ' ' :: 'e' :: []) := by
    simp [normalizedText, wordsOf, joinSp]
  exact ⟨by decide, hnorm,
    (chunk_roundtrip 2 _ (by decide) hnorm).1⟩

/-- C4 counterexample: on the whitespace-only text `" "` the chunks join to
the empty text, not to `" "` — the exact round-trip fails for
non-normalized input. -/
theorem chunk_roundtrip_counterexample :
    joinSp (chunk 500 (' ' :: [])) ≠ (' ' :: []) := by
  simp [chunk, wordsOf, groupsOf, joinSp]

/-! ## Ranker/Filter

Modelled from the spec: `grant_matcher.py` is missing from the source tree.
The spec's Ranker contract: given the unordered set of (grant, score) pairs,
a minimum-score threshold `minScore` and an optional cap `topN`
(`0` = unlimited): (1) discard pairs below `minScore`; (2) sort by score
descending, ties broken by the original grant ordering; (3) keep the first
`topN` when `topN > 0`; also return summary statistics.  Scores are `ℚ`
here so the order-theoretic behaviour stays executable; the grant payload
is an arbitrary type `α` carried through unmodified. -/

/-- Modelled from the spec: the sort order on indexed (grant, score)
entries — score descending, ties broken by the original position. -/
def rankLE {α : Type} (a b : ℕ × α × ℚ) : Bool :=
  decide (b.2.2 < a.2.2 ∨ (a.2.2 = b.2.2 ∧ a.1 ≤ b.1))

/-- Modelled from the spec: step 1 — index the pairs by original position
and discard every pair whose score is below `minScore`. -/
def rankPassing {α : Type} (pairs : List (α × ℚ)) (minScore : ℚ) :
    List (ℕ × α × ℚ) :=
  pairs.enum.filter (fun p => decide (minScore ≤ p.2.2))

/-- Modelled from the spec: step 2 — sort the surviving pairs by score
descending with the stable secondary key. -/
def rankSorted {α : Type} (pairs : List (α × ℚ)) (minScore : ℚ) :
    List (ℕ × α × ℚ) :=
  (rankPassing pairs minScore).mergeSort rankLE

/-- Modelled from the spec: step 3 — truncate to the first `topN` when
`topN > 0`, and drop the bookkeeping index. -/
def rank {α : Type} (pairs : List (α × ℚ)) (minScore : ℚ) (topN : ℕ) :
    List (α × ℚ) :=
  (if 0 < topN then (rankSorted pairs minScore).take topN
   else rankSorted pairs minScore).map (fun p => p.2)

/-- Modelled from the spec: the Ranker's summary statistics — count
analyzed, count passing the threshold, and min/max/mean score among the
passing results. -/
structure MatchStats where
  analyzed : ℕ
  matched : ℕ
  lowest : Option ℚ
  highest : Option ℚ
  mean : Option ℚ
deriving DecidableEq

/-- Modelled from the spec: computing the Ranker's summary statistics. -/
def rankStats {α : Type} (pairs : List (α × ℚ)) (minScore : ℚ) : MatchStats :=
  let passing := (pairs.map (fun p => p.2)).filter (fun q => decide (minScore ≤ q))
  { analyzed := pairs.length
    matched := passing.length
    lowest := passing.min?
    highest := passing.max?
    mean := if passing.isEmpty then none
            else some (passing.sum / (passing.length : ℚ)) }

lemma rankLE_trans {α : Type} (a b c : ℕ × α × ℚ) :
    rankLE a b → rankLE b c → rankLE a c := by
  simp only [rankLE, decide_eq_true_eq]
  rintro (hab | ⟨hab, hab'⟩) (hbc | ⟨hbc, hbc'⟩)
  · exact Or.inl (lt_trans hbc hab)
  · exact Or.inl (hbc ▸ hab)
  · exact Or.inl (hab ▸ hbc)
  · exact Or.inr ⟨hab.trans hbc, hab'.trans hbc'⟩

lemma rankLE_total {α : Type} (a b : ℕ × α × ℚ) :
    rankLE a b || rankLE b a := by
  simp only [rankLE, Bool.or_eq_true, decide_eq_true_eq]
  rcases lt_trichotomy a.2.2 b.2.2 with h | h | h
  · exact Or.inr (Or.inl h)
  · rcases Nat.le_total a.1 b.1 with h' | h'
    · exact Or.inl (Or.inr ⟨h, h'⟩)
    · exact Or.inr (Or.inr ⟨h.symm, h'⟩)
  · exact Or.inl (Or.inl h)

lemma snd_mem_of_mem_enumFrom {α : Type} :
    ∀ {n : ℕ} {l : List α} {p : ℕ × α}, p ∈ l.enumFrom n → p.2 ∈ l
  | _, [], _, h => by simp [List.enumFrom] at h
  | n, x :: xs, p, h => by
    rw [List.enumFrom, List.mem_cons] at h
    rcases h with h | h
    · simp [h]
    · exact List.mem_cons_of_mem x (snd_mem_of_mem_enumFrom h)

/-- C2: the Ranker's output is sorted by score descending, contains only
scores `≥ minScore`, has length `≤ topN` when `topN > 0`, and when zero
pairs pass the threshold it is the empty sequence with zero-match
statistics. -/
theorem rank_spec {α : Type} (pairs : List (α × ℚ)) (minScore : ℚ)
    (topN : ℕ) :
    List.Pairwise (fun a b : α × ℚ => b.2 ≤ a.2) (rank pairs minScore topN) ∧
    (∀ p ∈ rank pairs minScore topN, minScore ≤ p.2) ∧
    (0 < topN → (rank pairs minScore topN).length ≤ topN) ∧
    ((∀ p ∈ pairs, p.2 < minScore) →
      rank pairs minScore topN = [] ∧ (rankStats pairs minScore).matched = 0) := by
  have hsorted : (rankSorted pairs minScore).Pairwise (fun a b => rankLE a b) :=
    List.sorted_mergeSort rankLE_trans rankLE_total (rankPassing pairs minScore)
  have hlim :
      (if 0 < topN then (rankSorted pairs minScore).take topN
       else rankSorted pairs minScore).Sublist (rankSorted pairs minScore) := by
    by_cases h : 0 < topN
    · simpa [h] using List.take_sublist topN (rankSorted pairs minScore)
    · simp [h]
  refine ⟨?_, ?_, ?_, ?_⟩
  · have hp : (if 0 < topN then (rankSorted pairs minScore).take topN
        else rankSorted pairs minScore).Pairwise (fun a b => rankLE a b) :=
      hsorted.sublist hlim
    rw [rank, List.pairwise_map]
    refine hp.imp ?_
    intro a b hab
    simp only [rankLE, decide_eq_true_eq] at hab
    rcases hab with h | ⟨h, _⟩
    · exact le_of_lt h
    · exact le_of_eq h.symm
  · intro p hp
    rw [rank, List.mem_map] at hp
    obtain ⟨q, hq, rfl⟩ := hp
    have hq' : q ∈ rankSorted pairs minScore := hlim.subset hq
    rw [rankSorted, List.mem_mergeSort, rankPassing, List.mem_filter] at hq'
    simpa using hq'.2
  · intro h
    rw [rank, List.length_map, if_pos h, List.length_take]
    omega
  · intro h
    have hpass : rankPassing pairs minScore = [] := by
      rw [rankPassing, List.filter_eq_nil_iff]
      intro q hq
      have : q.2 ∈ pairs := snd_mem_of_mem_enumFrom hq
      simpa using not_le.mpr (h q.2 this)
    have hstats :
        ((pairs.map (fun p => p.2)).filter (fun q => decide (minScore ≤ q))) = [] := by
      rw [List.filter_eq_nil_iff]
      intro q hq
      rw [List.mem_map] at hq
      obtain ⟨p, hp, rfl⟩ := hq
      simpa using not_le.mpr (h p hp)
    constructor
    · simp [rank, rankSorted, hpass]
    · simp [rankStats, hstats]

/-- Witness for C2 at a concrete pair list, threshold and cap. -/
theorem rank_spec_witness :
    (0:ℕ) < 1 ∧
    (rank [(("A" : String), (2:ℚ)), ("B", 1)] 1 1).length ≤ 1 :=
  ⟨by decide, (rank_spec [(("A" : String), (2:ℚ)), ("B", 1)] 1 1).2.2.1 (by decide)⟩

/-- C6: raising the threshold never increases the number of returned
results: for `m₁ ≤ m₂` the run with threshold `m₂` returns at most as many
results as the run with `m₁` (equivalently, lowering the threshold never
decreases the result count). -/
theorem rank_threshold_monotone {α : Type} (pairs : List (α × ℚ))
    (topN : ℕ) (m₁ m₂ : ℚ) (h : m₁ ≤ m₂) :
    (rank pairs m₂ topN).length ≤ (rank pairs m₁ topN).length := by
  have hk : (rankPassing pairs m₂).length ≤ (rankPassing pairs m₁).length := by
    rw [rankPassing, rankPassing, ← List.countP_eq_length_filter,
      ← List.countP_eq_length_filter]
    refine List.countP_mono_left fun a _ ha => ?_
    simp only [decide_eq_true_eq] at ha ⊢
    exact le_trans h ha
  rw [rank, rank]
  by_cases ht : 0 < topN
  · simp only [if_pos ht, List.length_map, List.length_take, rankSorted,
      List.length_mergeSort]
    omega
  · simp only [if_neg ht, List.length_map, rankSorted, List.length_mergeSort]
    exact hk

/-- Witness for C6 at a concrete pair list and thresholds. -/
theorem rank_threshold_monotone_witness :
    (1:ℚ) ≤ 2 ∧
    (rank [(("A" : String), (2:ℚ)), ("B", 1)] 2 0).length ≤
      (rank [(("A" : String), (2:ℚ)), ("B", 1)] 1 0).length :=
  ⟨by decide,
    rank_threshold_monotone [(("A" : String), (2:ℚ)), ("B", 1)] 0 1 2 (by decide)⟩

/-! ## Vectorizer

Modelled from the spec: `grant_matcher.py` is missing from the source tree.
The spec's Vectorizer contract: over the full set of texts it builds TF-IDF
weights (`tf = count / total terms in the text`, `idf(t) = ln (N / df t)`),
returns one sparse term vector per input text, and fails with `EmptyCorpus`
exactly when no non-stop terms exist across all input texts combined. -/

/-- Modelled from the spec: token normalization (lower-casing). -/
def normalizeWord (w : List Char) : List Char := w.map Char.toLower

/-- Modelled from the spec: the normalized, non-stop-word terms of one
text. -/
def termsOf (stop : List (List Char)) (t : List Char) : List (List Char) :=
  ((wordsOf t).map normalizeWord).filter (fun w => !stop.contains w)

/-- Modelled from the spec: all non-stop terms across all input texts
combined. -/
def allTerms (stop : List (List Char)) (texts : List (List Char)) :
    List (List Char) :=
  (texts.map (termsOf stop)).flatten

/-- Modelled from the spec: the Vectorizer's error kind. -/
inductive VectorizeError
  | emptyCorpus
deriving DecidableEq

/-- Modelled from the spec: document frequency `df t` — the number of texts
containing the term. -/
def docFreq (stop : List (List Char)) (texts : List (List Char))
    (w : List Char) : ℕ :=
  texts.countP (fun t => (termsOf stop t).contains w)

/-- Modelled from the spec: TF-IDF weight of a term in a text —
`tf(text, w) × ln (N / df w)` with `tf = count / total term count`. -/
noncomputable def tfidfWeight (stop : List (List Char))
    (texts : List (List Char)) (t : List Char) (w : List Char) : ℝ :=
  (((termsOf stop t).count w : ℝ) / ((termsOf stop t).length : ℝ)) *
    Real.log ((texts.length : ℝ) / (docFreq stop texts w : ℝ))

/-- Modelled from the spec: the Vectorizer — fails with `EmptyCorpus` when
no non-stop terms exist across all input texts, otherwise returns one term
vector per input text. -/
noncomputable def vectorize (stop : List (List Char))
    (texts : List (List Char)) :
    Except VectorizeError (List (List Char → ℝ)) :=
  if allTerms stop texts = [] then .error .emptyCorpus
  else .ok (texts.map (fun t w => tfidfWeight stop texts t w))

/-- C7: the Vectorizer fails with `EmptyCorpus` exactly when, after chunking
and stop-word removal, no non-stop terms exist across all input texts
combined; otherwise it succeeds with one term vector per input text. -/
theorem vectorize_spec (stop : List (List Char)) (texts : List (List Char)) :
    (vectorize stop texts = .error .emptyCorpus ↔ allTerms stop texts = []) ∧
    (allTerms stop texts ≠ [] →
      ∃ vs, vectorize stop texts = .ok vs ∧ vs.length = texts.length) := by
  by_cases h : allTerms stop texts = []
  · constructor
    · simp [vectorize, h]
    · intro hne
      exact absurd h hne
  · constructor
    · simp [vectorize, h]
    · intro _
      exact ⟨texts.map (fun t w => tfidfWeight stop texts t w),
        by simp [vectorize, h], by simp⟩

/-- Witness for C7 at a concrete one-text corpus with no stop words. -/
theorem vectorize_spec_witness :
    allTerms [] [('g' :: 'r' :: 'a' :: 'n' :: 't' :: [])] ≠ [] ∧
    ∃ vs, vectorize [] [('g' :: 'r' :: 'a' :: 'n' :: 't' :: [])] = .ok vs ∧
      vs.length = 1 := by
  have hne : allTerms [] [('g' :: 'r' :: 'a' :: 'n' :: 't' :: [])] ≠ [] := by
    simp [allTerms, termsOf, wordsOf, normalizeWord]
  exact ⟨hne,
    (vectorize_spec [] [('g' :: 'r' :: 'a' :: 'n' :: 't' :: [])]).2 hne⟩

/-! ## Browser console auto-save script

Embedded from `src/BROWSER_CONSOLE_SCRIPT.md`.  A save button carries its
visible text, its class string and its disabled flag; `isAlreadySaved`
mirrors the script's check, `toSaveCount` mirrors
`CONFIG.maxToSave ? Math.min(CONFIG.maxToSave, totalFound) : totalFound`
(JavaScript truthiness: both `null` and `0` take the `totalFound` branch),
and the main `for` loop over `buttons[0..toSave)` is a fold that either
clicks a button (incrementing `savedCount`) or skips it (incrementing
`skippedCount`).  Clicking is recorded so that "never clicked" is a
statement about the run. -/

/-- A save button on the page, as the script reads it: `textContent`,
`className` and the `disabled` flag. -/
structure SaveButton where
  text : List Char
  className : List Char
  disabled : Bool
deriving DecidableEq

/-- Lower-casing, as `String.prototype.toLowerCase` on the script's side. -/
def lowerStr (s : List Char) : List Char := s.map Char.toLower

/-- Substring test, as `haystack.includes(needle)`: some tail of the
haystack starts with the needle. -/
def containsSub (needle : List Char) : List Char → Bool
  | [] => needle.isEmpty
  | c :: cs => needle.isPrefixOf (c :: cs) || containsSub needle cs

/-- The script's `isAlreadySaved(button)`: the lower-cased text contains
`"saved"` or `"unsave"`, the lower-cased class string contains `"saved"`,
or the button is disabled. -/
def isAlreadySaved (b : SaveButton) : Bool :=
  containsSub "saved".toList (lowerStr b.text) ||
  containsSub "unsave".toList (lowerStr b.text) ||
  containsSub "saved".toList (lowerStr b.className) ||
  b.disabled

/-- The script's `const toSave = CONFIG.maxToSave ?
Math.min(CONFIG.maxToSave, totalFound) : totalFound;` — `maxToSave` is
`null` or a number, and `0` is falsy. -/
def toSaveCount (maxToSave : Option ℕ) (totalFound : ℕ) : ℕ :=
  match maxToSave with
  | none => totalFound
  | some m => if m = 0 then totalFound else min m totalFound

/-- The mutable state of the main save loop: `savedCount`, `skippedCount`,
and the buttons actually clicked so far. -/
structure SaveLoopState where
  savedCount : ℕ
  skippedCount : ℕ
  clicked : List SaveButton
deriving DecidableEq

/-- One iteration of the main save loop: an already-saved button is skipped
(`skippedCount++`, no click); otherwise the button is clicked and
`savedCount++`. -/
def saveStep (st : SaveLoopState) (b : SaveButton) : SaveLoopState :=
  if isAlreadySaved b then { st with skippedCount := st.skippedCount + 1 }
  else { st with savedCount := st.savedCount + 1, clicked := st.clicked ++ [b] }

/-- The buttons the main loop iterates over: `buttons[i]` for
`0 ≤ i < toSave`. -/
def processedButtons (buttons : List SaveButton) (maxToSave : Option ℕ) :
    List SaveButton :=
  buttons.take (toSaveCount maxToSave buttons.length)

/-- The whole main loop, starting from `savedCount = 0`,
`skippedCount = 0`, nothing clicked. -/
def runSaveLoop (buttons : List SaveButton) (maxToSave : Option ℕ) :
    SaveLoopState :=
  (processedButtons buttons maxToSave).foldl saveStep ⟨0, 0, []⟩

lemma saveLoop_totals (l : List SaveButton) (st : SaveLoopState) :
    (l.foldl saveStep st).savedCount + (l.foldl saveStep st).skippedCount =
      st.savedCount + st.skippedCount + l.length := by
  induction l generalizing st with
  | nil => simp
  | cons b l ih =>
    rw [List.foldl_cons, ih]
    by_cases h : isAlreadySaved b <;> simp [saveStep, h] <;> omega

lemma saveLoop_clicked (l : List SaveButton) (st : SaveLoopState) :
    ∀ b ∈ (l.foldl saveStep st).clicked,
      b ∈ st.clicked ∨ isAlreadySaved b = false := by
  induction l generalizing st with
  | nil =>
    intro b hb
    exact Or.inl hb
  | cons x l ih =>
    intro b hb
    rw [List.foldl_cons] at hb
    by_cases h : isAlreadySaved x
    · simpa [saveStep, h] using ih _ b hb
    · rcases ih _ b hb with hmem | hnew
      · rw [saveStep, if_neg h] at hmem
        rcases List.mem_append.mp hmem with hold | hx
        · exact Or.inl hold
        · exact Or.inr (List.mem_singleton.mp hx ▸ Bool.eq_false_iff.mpr h)
      · exact Or.inr hnew

lemma saveLoop_skipped (l : List SaveButton) (st : SaveLoopState) :
    (l.foldl saveStep st).skippedCount =
      st.skippedCount + l.countP (fun b => isAlreadySaved b) := by
  induction l generalizing st with
  | nil => simp
  | cons b l ih =>
    rw [List.foldl_cons, ih, List.countP_cons]
    by_cases h : isAlreadySaved b <;> simp [saveStep, h] <;> omega

/-- C8: with a positive `maxToSave = some m` the loop processes at most
`min m totalFound` buttons; with `maxToSave` `null` or `0` it processes all
`totalFound` buttons; and `savedCount + skippedCount` never exceeds the
number of buttons processed. -/
theorem consoleLoop_counts (buttons : List SaveButton)
    (maxToSave : Option ℕ) :
    (∀ m, maxToSave = some m → 0 < m →
      (processedButtons buttons maxToSave).length ≤ min m buttons.length) ∧
    ((maxToSave = none ∨ maxToSave = some 0) →
      (processedButtons buttons maxToSave).length = buttons.length) ∧
    (runSaveLoop buttons maxToSave).savedCount +
        (runSaveLoop buttons maxToSave).skippedCount ≤
      (processedButtons buttons maxToSave).length := by
  refine ⟨?_, ?_, ?_⟩
  · rintro m rfl hm
    simp only [processedButtons, toSaveCount, List.length_take]
    have hm' : m ≠ 0 := Nat.pos_iff_ne_zero.mp hm
    simp only [hm', if_false, reduceIte]
    omega
  · rintro (rfl | rfl) <;>
      simp [processedButtons, toSaveCount, List.length_take]
  · rw [runSaveLoop]
    have h := saveLoop_totals (processedButtons buttons maxToSave) ⟨0, 0, []⟩
    simp only [Nat.zero_add] at h
    omega

/-- Witness for C8 at a concrete button list and `maxToSave = 1`. -/
theorem consoleLoop_counts_witness :
    (some 1 : Option ℕ) = some 1 ∧ 0 < 1 ∧
    (processedButtons
        [⟨"Save".toList, "btn".toList, false⟩,
         ⟨"Save".toList, "btn".toList, false⟩] (some 1)).length ≤
      min 1 2 := by
  refine ⟨rfl, Nat.one_pos, ?_⟩
  have h := (consoleLoop_counts
    [⟨"Save".toList, "btn".toList, false⟩,
     ⟨"Save".toList, "btn".toList, false⟩] (some 1)).1 1 rfl Nat.one_pos
  simpa using h

/-- C9: a button that the script's `isAlreadySaved` recognises is never
clicked by the main loop, and `skippedCount` counts exactly the already
saved buttons among those processed. -/
theorem consoleLoop_never_clicks_saved (buttons : List SaveButton)
    (maxToSave : Option ℕ) :
    (∀ b ∈ (runSaveLoop buttons maxToSave).clicked,
      isAlreadySaved b = false) ∧
    (runSaveLoop buttons maxToSave).skippedCount =
      (processedButtons buttons maxToSave).countP
        (fun b => isAlreadySaved b) := by
  constructor
  · intro b hb
    rcases saveLoop_clicked (processedButtons buttons maxToSave) ⟨0, 0, []⟩ b
      hb with hmem | hnew
    · simp at hmem
    · exact hnew
  · have h := saveLoop_skipped (processedButtons buttons maxToSave) ⟨0, 0, []⟩
    simpa [runSaveLoop] using h

/-- Witness for C9: on a run over one fresh and one already-saved button,
the fresh button is clicked and the theorem reports it unsaved, while the
skip count is 1. -/
theorem consoleLoop_never_clicks_saved_witness :
    ⟨"Save".toList, "btn".toList, false⟩ ∈
      (runSaveLoop
        [⟨"Save".toList, "btn".toList, false⟩,
         ⟨"Saved".toList, "btn saved".toList, false⟩] none).clicked ∧
    isAlreadySaved ⟨"Save".toList, "btn".toList, false⟩ = false := by
  refine ⟨by decide, ?_⟩
  exact (consoleLoop_never_clicks_saved
    [⟨"Save".toList, "btn".toList, false⟩,
     ⟨"Saved".toList, "btn saved".toList, false⟩] none).1
    ⟨"Save".toList, "btn".toList, false⟩ (by decide)

/-! ## Bookmarklet

Embedded from `src/bookmarklet_source.js`.  The page state carries
`window.__iasRunning`, the number of status overlay boxes appended to the
document, and the number of save loops started and not yet exited.
Invoking the bookmarklet runs the guard: if `__iasRunning` is set it only
clears the flag and returns; otherwise it sets the flag, appends an
overlay and starts the async save loop.  A running loop exits in two
ways: its `while`/countdown observes `__iasRunning === false`
(`observeStop`), or `waitForBtn` times out and the `catch` block clears
the flag and leaves the loop (`timeoutDone`). -/

/-- The page state the bookmarklet manipulates. -/
structure PageState where
  iasRunning : Bool
  overlays : ℕ
  activeLoops : ℕ
deriving DecidableEq

/-- The events of the bookmarklet's lifecycle: a bookmarklet invocation, a
loop observing the cleared flag and exiting, and a `waitForBtn` timeout
ending a loop through the `catch` block. -/
inductive BookmarkletEvent
  | invoke
  | observeStop
  | timeoutDone
deriving DecidableEq

/-- One transition of the page. `invoke` is lines 13–17 of
`bookmarklet_source.js` (the `__iasRunning` guard) followed, in the start
branch, by appending the overlay box and launching `loop()`.
`observeStop` is a loop noticing `!window.__iasRunning` and leaving;
`timeoutDone` is the `catch` branch, which clears the flag and leaves. -/
def bookmarkletStep (s : PageState) : BookmarkletEvent → PageState
  | .invoke =>
    if s.iasRunning then { s with iasRunning := false }
    else { iasRunning := true, overlays := s.overlays + 1,
           activeLoops := s.activeLoops + 1 }
  | .observeStop =>
    if !s.iasRunning && decide (0 < s.activeLoops)
    then { s with activeLoops := s.activeLoops - 1 }
    else s
  | .timeoutDone =>
    if 0 < s.activeLoops
    then { iasRunning := false, overlays := s.overlays,
           activeLoops := s.activeLoops - 1 }
    else s

/-- Run a sequence of events. -/
def runEvents (s : PageState) (es : List BookmarkletEvent) : PageState :=
  es.foldl bookmarkletStep s

/-- The page before the bookmarklet is ever used. -/
def initialPage : PageState := ⟨false, 0, 0⟩

/-- An event sequence is well separated when the bookmarklet is only
re-invoked to start once every previously stopped loop has already
exited — i.e. an `invoke` finding `__iasRunning` false happens only with
no loop still draining. -/
def wellSeparated : PageState → List BookmarkletEvent → Bool
  | _, [] => true
  | s, .invoke :: es =>
    (s.iasRunning || decide (s.activeLoops = 0)) &&
      wellSeparated (bookmarkletStep s .invoke) es
  | s, e :: es => wellSeparated (bookmarkletStep s e) es

/-- C10 (amended): invoking while `__iasRunning` is true only clears the
flag and returns — no new overlay, no new loop; an invocation with the
flag falsy is the only way a loop starts; and along any well separated
event sequence at most one save loop is active at any time.  (Without the
separation proviso a stop immediately followed by a restart can leave two
loops active; see the counterexample.) -/
theorem bookmarklet_toggle (s : PageState) (es : List BookmarkletEvent) :
    (s.iasRunning = true →
      bookmarkletStep s .invoke =
        { iasRunning := false, overlays := s.overlays,
          activeLoops := s.activeLoops }) ∧
    (s.iasRunning = false →
      bookmarkletStep s .invoke =
        { iasRunning := true, overlays := s.overlays + 1,
          activeLoops := s.activeLoops + 1 }) ∧
    (s.activeLoops ≤ 1 → wellSeparated s es →
      (runEvents s es).activeLoops ≤ 1) := by
  refine ⟨?_, ?_, ?_⟩
  · intro h
    simp [bookmarkletStep, h]
  · intro h
    simp [bookmarkletStep, h]
  · intro hs hw
    induction es generalizing s with
    | nil => simpa [runEvents] using hs
    | cons e es ih =>
      have hstep : (bookmarkletStep s e).activeLoops ≤ 1 := by
        cases e with
        | invoke =>
          by_cases hr : s.iasRunning
          · simpa [bookmarkletStep, hr] using hs
          · have h0 : s.activeLoops = 0 := by
              rw [wellSeparated] at hw
              have := (Bool.and_eq_true _ _).mp hw |>.1
              simpa [hr] using this
            simp [bookmarkletStep, hr, h0]
        | observeStop =>
          rw [bookmarkletStep]
          by_cases hc : !s.iasRunning && decide (0 < s.activeLoops) <;>
            simp [hc] <;> omega
        | timeoutDone =>
          rw [bookmarkletStep]
          by_cases hc : 0 < s.activeLoops <;> simp [hc] <;> omega
      have hw' : wellSeparated (bookmarkletStep s e) es := by
        cases e with
        | invoke => exact ((Bool.and_eq_true _ _).mp hw).2
        | observeStop => exact hw
        | timeoutDone => exact hw
      have := ih (bookmarkletStep s e) hstep hw'
      simpa [runEvents] using this

/-- Witness for C10 at a concrete well separated run: start, stop, drain,
restart. -/
theorem bookmarklet_toggle_witness :
    initialPage.activeLoops ≤ 1 ∧
    wellSeparated initialPage
      [.invoke, .invoke, .observeStop, .invoke] = true ∧
    (runEvents initialPage
      [.invoke, .invoke, .observeStop, .invoke]).activeLoops ≤ 1 := by
  refine ⟨by decide, by decide, ?_⟩
  exact (bookmarklet_toggle initialPage
    [.invoke, .invoke, .observeStop, .invoke]).2.2 (by decide) (by decide)

/-- C10 counterexample: three rapid invocations — start, stop, restart —
leave the first loop still draining while a second one starts: two save
loops are active at once, refuting "at most one auto-save loop runs at any
time" without the separation proviso. -/
theorem bookmarklet_two_loops_counterexample :
    (runEvents initialPage [.invoke, .invoke, .invoke]).activeLoops = 2 := by
  decide

end GrantSearch
